import Mathlib

/-!
Verification development for the `random-rs` repository: the `random-trait`
crate (generic typed-value construction from a byte source) and the
`random-fast-rng` crate (Pcg32 `FastRng`).

Embedding conventions:
* Machine integers are `ℕ` with explicit `% 2^w` where wrap-around matters.
* A byte source (the essence of the `Random` trait, whose only required
  method is `try_fill_bytes`) is an infinite stream `s : ℕ → ℕ`; byte `i`
  of the stream is `s i % 256`.  The cursor of the source is threaded
  explicitly: a reader takes a position and returns the value together with
  the next position, mirroring the strictly sequential byte consumption of
  the trait's provided methods.
* Multi-byte reads (`get_u16`/`get_u32`/`get_u64`, implemented in the source
  by `transmute` of a filled byte buffer) are little-endian, matching the
  host byte layout the `transmute` exposes.
* Fallible code returns `Option`/`Except`; an aborted computation (a Rust
  `panic!`/`unreachable!`) is `none`.
-/

namespace RandomRs

/-- A byte source: an infinite stream of bytes (each taken `% 256`).
Models an implementor of `random_trait::Random`, whose `try_fill_bytes`
hands out the successive bytes of this stream. -/
def ByteSrc : Type := ℕ → ℕ

/-- Byte `i` of the source. -/
def byteAt (s : ByteSrc) (i : ℕ) : ℕ := s i % 256

/-- Little-endian value of `len` bytes of `s` starting at position `pos`.
Models `fill_bytes` into a `len`-byte buffer followed by `transmute` to an
unsigned integer (source: `Random::get_u16/get_u32/get_u64`). -/
def leVal (s : ByteSrc) : ℕ → ℕ → ℕ
  | _, 0 => 0
  | pos, len + 1 => byteAt s pos + 256 * leVal s (pos + 1) len

/-- Models `Random::get_u8`: fill one byte and return it. -/
def get_u8 (s : ByteSrc) (pos : ℕ) : ℕ := byteAt s pos

/-- Models `Random::get_u32`: fill four bytes, reinterpret (little-endian). -/
def get_u32 (s : ByteSrc) (pos : ℕ) : ℕ := leVal s pos 4

/-- Models `Random::get_u64`: fill eight bytes, reinterpret (little-endian). -/
def get_u64 (s : ByteSrc) (pos : ℕ) : ℕ := leVal s pos 8

/-- Models `Random::get_bool` (random-trait/src/lib.rs lines 162-168):
`let bit = self.get_u8() & 128; bit == 1`.
The `debug_assert!(bit < 2)` of the source is an assertion, not behaviour;
its condition is `get_bool_assert_cond` below. -/
def get_bool (s : ByteSrc) (pos : ℕ) : Bool :=
  (get_u8 s pos &&& 128) == 1

/-- The condition asserted by `debug_assert!(bit < 2)` inside `get_bool`. -/
def get_bool_assert_cond (s : ByteSrc) (pos : ℕ) : Prop :=
  (get_u8 s pos &&& 128) < 2

/-- The Pcg32 multiplier `PCG_DEFAULT_MULTIPLIER_64`
(random-fast-rng/src/lib.rs line 40). -/
def PCG_DEFAULT_MULTIPLIER_64 : ℕ := 6364136223846793005

/-- One LCG state step
`state.wrapping_mul(PCG_DEFAULT_MULTIPLIER_64).wrapping_add(inc)`. -/
def lcgStep (st inc : ℕ) : ℕ :=
  (st * PCG_DEFAULT_MULTIPLIER_64 + inc) % 2 ^ 64

/-- The xorshifted quantity of `FastRng::gen_u32`:
`(((old_state >> 18) ^ old_state) >> 27) as u32`. -/
def xorshifted (st : ℕ) : ℕ :=
  (((st >>> 18) ^^^ st) >>> 27) % 2 ^ 32

/-- Models the `i32` expression `(-rot) & 31` of `FastRng::gen_u32` for
`rot ∈ [0, 31]`: two's-complement negation of `rot`, masked to 5 bits. -/
def negRotAnd31 (rot : ℕ) : ℕ := ((2 ^ 32 - rot) % 2 ^ 32) &&& 31

/-- Models `FastRng::gen_u32` (random-fast-rng/src/lib.rs lines 83-90):
returns the output word and the new state (the increment is unchanged).
The output is computed from the old state; `<<` on `u32` discards high
bits, hence the `% 2^32`. -/
def gen_u32 (st inc : ℕ) : ℕ × ℕ :=
  let rot := st >>> 59
  ((xorshifted st >>> rot) ||| ((xorshifted st <<< negRotAnd31 rot) % 2 ^ 32),
    lcgStep st inc)

/-- Models `FastRng::seed` (random-fast-rng/src/lib.rs lines 75-81) under
release-profile (wrapping) arithmetic semantics, as the specification's
"all arithmetic is modular/wrapping" dictates:
`init_inc = (seq << 1) | 1`, `init_state = seed + init_inc`, then one
priming LCG step.  Returns `(state, inc)`.  Note: the source's
`seed + init_inc` is a plain `+`, not `wrapping_add`; `seed_checked`
models its checked (debug-profile) semantics. -/
def seed (sd sq : ℕ) : ℕ × ℕ :=
  let init_inc := ((sq <<< 1) % 2 ^ 64) ||| 1
  let init_state := (sd + init_inc) % 2 ^ 64
  (lcgStep init_state init_inc, init_inc)

/-- Models `FastRng::seed` with the overflow check Rust's debug profile
places on the plain `+` of `let init_state = seed + init_inc;`
(random-fast-rng/src/lib.rs line 77): `none` is the overflow panic.
The shift `seq << 1` silently discards the top bit in both profiles, and
the following line uses explicit `wrapping_mul`/`wrapping_add`. -/
def seed_checked (sd sq : ℕ) : Option (ℕ × ℕ) :=
  let init_inc := ((sq <<< 1) % 2 ^ 64) ||| 1
  if sd + init_inc < 2 ^ 64 then
    some (lcgStep (sd + init_inc) init_inc, init_inc)
  else
    none

/-- Mathematical rotate-right of a 32-bit word `x` by `r ∈ [0, 31]` bits. -/
def rotr32 (x r : ℕ) : ℕ := x / 2 ^ r + x % 2 ^ r * 2 ^ (32 - r)

/-- The little-endian bytes of a 32-bit word, as laid out in memory on the
host and exposed by `transmute::<u32, [u8; 4]>` in `try_fill_bytes`. -/
def u32Bytes (x : ℕ) : List ℕ :=
  [x % 256, x / 256 % 256, x / 65536 % 256, x / 16777216 % 256]

/-- Models the buffer contents produced by `Random::try_fill_bytes for
FastRng` (random-fast-rng/src/lib.rs lines 125-132) on a buffer of length
`n`, together with the state after the call: each 4-byte chunk receives the
bytes of one fresh `gen_u32` word, a final chunk of length `n % 4 ≠ 0`
receives only the first `n % 4` bytes of the last word. -/
def fill_bytes_list (st inc n : ℕ) : List ℕ × ℕ :=
  if n = 0 then ([], st)
  else
    let w := gen_u32 st inc
    if n < 4 then ((u32Bytes w.1).take n, w.2)
    else
      let rest := fill_bytes_list w.2 inc (n - 4)
      (u32Bytes w.1 ++ rest.1, rest.2)
  termination_by n
  decreasing_by omega

/-- Models `Random::try_fill_bytes for FastRng` including its error channel:
the function body has no failing path and ends in `Ok(())`. -/
def try_fill_bytes (st inc n : ℕ) : Except Unit (List ℕ × ℕ) :=
  Except.ok (fill_bytes_list st inc n)

/-- The first `k` output words of the generator from state `st`. -/
def word_list (st inc : ℕ) : ℕ → List ℕ
  | 0 => []
  | k + 1 => (gen_u32 st inc).1 :: word_list (gen_u32 st inc).2 inc k

/-- The state after `k` `gen_u32` calls. -/
def state_after (st inc : ℕ) : ℕ → ℕ
  | 0 => st
  | k + 1 => state_after (gen_u32 st inc).2 inc k

/-- The buffers produced by a sequence of `fill`-style calls with the given
lengths, threading the generator state. -/
def run_fills (st inc : ℕ) : List ℕ → List (List ℕ)
  | [] => []
  | n :: rest =>
    let r := fill_bytes_list st inc n
    r.1 :: run_fills r.2 inc rest

/-- Whether `v` is a valid Unicode scalar value, i.e. whether
`char::from_u32(v)` returns `Some`: not a surrogate (`0xD800..=0xDFFF`)
and at most `0x10FFFF`. -/
def is_valid_char (v : ℕ) : Bool :=
  decide (v < 0xD800) || (decide (0xE000 ≤ v) && decide (v ≤ 0x10FFFF))

/-- Models `impl GenerateRand for char` (random-trait/src/lib.rs lines
214-223): draw `get_u32` words until one is a valid scalar value.  The
source loop is unbounded, so the model carries explicit fuel; `none` means
the loop did not terminate within `fuel` draws. -/
def gen_char (s : ByteSrc) : ℕ → ℕ → Option ℕ
  | 0, _ => none
  | fuel + 1, pos =>
    let v := get_u32 s pos
    if is_valid_char v then some v else gen_char s fuel (pos + 4)

/-- Models the element rule `impl GenerateRand for u32` used as a concrete
element generator: read four bytes, advance the cursor. -/
def u32_rule (s : ByteSrc) (pos : ℕ) : ℕ × ℕ := (get_u32 s pos, pos + 4)

/-- Models the `array_impls!` macro (random-trait/src/lib.rs lines 331-350):
an `N`-element array is built as the literal
`[rand.gen(), rand.gen(), ...]`, whose element expressions Rust evaluates
left to right; each call consumes bytes where the previous one stopped. -/
def gen_array {α : Type} (g : ByteSrc → ℕ → α × ℕ) (s : ByteSrc) :
    ℕ → ℕ → List α × ℕ
  | 0, pos => ([], pos)
  | n + 1, pos =>
    let r := g s pos
    let rest := gen_array g s n r.2
    (r.1 :: rest.1, rest.2)

/-- Cursor position at which the `i`-th element generation call starts when
the first call starts at `pos`. -/
def call_pos {α : Type} (g : ByteSrc → ℕ → α × ℕ) (s : ByteSrc) (pos : ℕ) :
    ℕ → ℕ
  | 0 => pos
  | i + 1 => (g s (call_pos g s pos i)).2

/-- Models the `tuple_impls!` macro (random-trait/src/lib.rs lines 352-384)
at arity two: `({let x: A = rand.gen(); x}, {let x: B = rand.gen(); x})`,
components evaluated left to right. -/
def gen_pair {α β : Type} (g1 : ByteSrc → ℕ → α × ℕ)
    (g2 : ByteSrc → ℕ → β × ℕ) (s : ByteSrc) (pos : ℕ) : (α × β) × ℕ :=
  let a := g1 s pos
  let b := g2 s a.2
  ((a.1, b.1), b.2)

/-- Bit length of `n` computed with explicit fuel (structural recursion so
that concrete instances reduce in the kernel).  For `n < 2^fuel` this is
the position of the highest set bit plus one. -/
def sizeAux : ℕ → ℕ → ℕ
  | 0, _ => 0
  | fuel + 1, n => if n = 0 then 0 else sizeAux fuel (n / 2) + 1

/-- Models `u64::leading_zeros`: `64 -` bit length. -/
def clz64 (n : ℕ) : ℕ := 64 - sizeAux 64 n

/-- Models `u32::leading_zeros`: `32 -` bit length. -/
def clz32 (n : ℕ) : ℕ := 32 - sizeAux 32 n

/-- Models the zero-retry loop of `impl GenerateRand for f64`
(random-trait/src/lib.rs lines 236-246): starting from
`exponent = -64` and a fresh `get_u64` draw, on a zero draw subtract 64
from the exponent and, if it fell below `-1074`, abort
(`unreachable!("The randomness is broken...")`, modelled as `none`);
otherwise redraw.  Returns `(significand, exponent, next position)`.
The fuel only bounds the recursion; the abort guard fires after 16
consecutive zero draws, so any fuel `≥ 17` gives the exact semantics and
the fuel-exhaustion branch is unreachable from `f64core` below. -/
def f64loop (s : ByteSrc) : ℕ → ℕ → ℤ → Option (ℕ × ℤ × ℕ)
  | 0, _, _ => none
  | fuel + 1, pos, e =>
    let sig := get_u64 s pos
    if sig = 0 then
      let e' := e - 64
      if e' < -1074 then none
      else f64loop s fuel (pos + 8) e'
    else some (sig, e, pos + 8)

/-- Models the normalization and sticky-bit steps of
`impl GenerateRand for f64` (random-trait/src/lib.rs lines 248-256):
shift the leading zeros out of the significand, refill the vacated low
bits with the top bits of one more `get_u64` draw, then OR in the sticky
bit.  Returns the final `(significand, exponent)`. -/
def f64post (s : ByteSrc) (sig : ℕ) (e : ℤ) (pos : ℕ) : ℕ × ℤ :=
  let shift := clz64 sig
  if 0 < shift then
    ((((sig <<< shift) % 2 ^ 64) ||| (get_u64 s pos >>> (64 - shift))) ||| 1,
      e - shift)
  else (sig ||| 1, e)

/-- The final `(significand, exponent)` pair computed by
`impl GenerateRand for f64`; `none` is the zero-retry loop's abort. -/
def f64core (s : ByteSrc) : Option (ℕ × ℤ) :=
  (f64loop s 17 0 (-64)).map fun t => f64post s t.1 t.2.1 t.2.2

/-- Round-to-nearest (ties to even) of `n` to 53 significant bits, for
`n ∈ [2^63, 2^64)`: the exact value of the Rust cast `n as f64`, which
rounds the 64-bit integer to the nearest multiple of `2^11` (the result
may be `2^64` itself). -/
def rnd53 (n : ℕ) : ℕ :=
  if n % 2048 < 1024 then n / 2048 * 2048
  else if 1024 < n % 2048 then (n / 2048 + 1) * 2048
  else if n / 2048 % 2 = 0 then n / 2048 * 2048 else (n / 2048 + 1) * 2048

/-- The value of `significand as f64 * exp2(exponent)`
(random-trait/src/lib.rs lines 258-259 and 302-306) as an exact rational,
for a significand in `[2^63, 2^64)`.  `exp2` builds the bit pattern
`((1023 + e) as u64) << 52`:
* for `e ≥ -1022` this is the normal float `2^e`, and the product
  `rnd53 sig * 2^e` (magnitude at least `2^(63-1022)`, mantissa at most
  53 bits) is exactly representable, so the multiplication is exact;
* for `e = -1023` the pattern is all zeros, i.e. `+0.0`, and the product
  is exactly `0`;
* for `e < -1023` the sign-extending cast `(1023 + e) as u64` places a
  huge negative power of two (or directly the `-inf` pattern) in the
  "power" and the product overflows to negative infinity — not a real
  number, modelled `none`.  (In debug builds `exp2`'s
  `debug_assert!(exp > -1023)` fires for both non-first branches.) -/
def f64val (sig : ℕ) (e : ℤ) : Option ℚ :=
  if -1022 ≤ e then some ((rnd53 sig : ℚ) * (2 : ℚ) ^ e)
  else if e = -1023 then some 0
  else none

/-- The f64 produced by `impl GenerateRand for f64` as an exact rational;
`none` when the computation aborts or produces a non-finite value. -/
def f64value (s : ByteSrc) : Option ℚ :=
  (f64core s).bind fun p => f64val p.1 p.2

/-- Models the zero-retry loop of `impl GenerateRand for f32`
(random-trait/src/lib.rs lines 267-278): `exponent = -32`, step `-32`,
abort guard at `-149`.  The guard fires after 4 consecutive zero draws,
so any fuel `≥ 5` gives the exact semantics. -/
def f32loop (s : ByteSrc) : ℕ → ℕ → ℤ → Option (ℕ × ℤ × ℕ)
  | 0, _, _ => none
  | fuel + 1, pos, e =>
    let sig := get_u32 s pos
    if sig = 0 then
      let e' := e - 32
      if e' < -149 then none
      else f32loop s fuel (pos + 4) e'
    else some (sig, e, pos + 4)

/-- Normalization and sticky bit of `impl GenerateRand for f32`
(random-trait/src/lib.rs lines 280-288). -/
def f32post (s : ByteSrc) (sig : ℕ) (e : ℤ) (pos : ℕ) : ℕ × ℤ :=
  let shift := clz32 sig
  if 0 < shift then
    ((((sig <<< shift) % 2 ^ 32) ||| (get_u32 s pos >>> (32 - shift))) ||| 1,
      e - shift)
  else (sig ||| 1, e)

/-- The final `(significand, exponent)` pair computed by
`impl GenerateRand for f32`; `none` is the zero-retry loop's abort. -/
def f32core (s : ByteSrc) : Option (ℕ × ℤ) :=
  (f32loop s 5 0 (-32)).map fun t => f32post s t.1 t.2.1 t.2.2

/-- Round-to-nearest (ties to even) of `n` to 24 significant bits, for
`n ∈ [2^31, 2^32)`: the exact value of the Rust cast `n as f32`. -/
def rnd24 (n : ℕ) : ℕ :=
  if n % 256 < 128 then n / 256 * 256
  else if 128 < n % 256 then (n / 256 + 1) * 256
  else if n / 256 % 2 = 0 then n / 256 * 256 else (n / 256 + 1) * 256

/-- The value of `significand as f32 * exp2f(exponent)`
(random-trait/src/lib.rs lines 290-301) as an exact rational, for a
significand in `[2^31, 2^32)`; branches as in `f64val` with
`exp2f` building `((127 + e) as u32) << 23`: exact normal `2^e` for
`e ≥ -126`, `+0.0` at `e = -127`, a non-finite product below that. -/
def f32val (sig : ℕ) (e : ℤ) : Option ℚ :=
  if -126 ≤ e then some ((rnd24 sig : ℚ) * (2 : ℚ) ^ e)
  else if e = -127 then some 0
  else none

/-- The f32 produced by `impl GenerateRand for f32` as an exact rational;
`none` when the computation aborts or produces a non-finite value. -/
def f32value (s : ByteSrc) : Option ℚ :=
  (f32core s).bind fun p => f32val p.1 p.2

end RandomRs

namespace RandomRs

/-- Little-endian recombination of `len` bytes is bounded by `256 ^ len`. -/
theorem leVal_lt (s : ByteSrc) : ∀ (len pos : ℕ), leVal s pos len < 256 ^ len := by
  intro len
  induction len with
  | zero => intro pos; simp [leVal]
  | succ n ih =>
    intro pos
    have h1 : byteAt s pos < 256 := Nat.mod_lt _ (by norm_num)
    have h2 : leVal s (pos + 1) n + 1 ≤ 256 ^ n := ih (pos + 1)
    calc leVal s pos (n + 1) = byteAt s pos + 256 * leVal s (pos + 1) n := rfl
      _ < 256 * (leVal s (pos + 1) n + 1) := by omega
      _ ≤ 256 * 256 ^ n := Nat.mul_le_mul_left 256 h2
      _ = 256 ^ (n + 1) := (pow_succ' 256 n).symm

/-- Bound for an eight-byte read. -/
theorem get_u64_lt (s : ByteSrc) (pos : ℕ) : get_u64 s pos < 2 ^ 64 := by
  have := leVal_lt s 8 pos
  norm_num [get_u64] at this ⊢
  omega

/-- Bound for a four-byte read. -/
theorem get_u32_lt (s : ByteSrc) (pos : ℕ) : get_u32 s pos < 2 ^ 32 := by
  have := leVal_lt s 4 pos
  norm_num [get_u32] at this ⊢
  omega

/-- ORing in the sticky bit sets the low bit and keeps the others. -/
theorem lor_one (x : ℕ) : x ||| 1 = 2 * (x / 2) + 1 := by
  have heven : ∀ q : ℕ, 2 * q ||| 1 = 2 * q + 1 := by
    intro q
    have h := Nat.mul_add_lt_is_or (show 1 < 2 ^ 1 by norm_num) q
    norm_num at h
    omega
  rcases Nat.mod_two_eq_zero_or_one x with h | h
  · obtain ⟨q, rfl⟩ : ∃ q, x = 2 * q := ⟨x / 2, by omega⟩
    rw [heven q]
    omega
  · obtain ⟨q, rfl⟩ : ∃ q, x = 2 * q + 1 := ⟨x / 2, by omega⟩
    have hob : 2 * q + 1 = 2 * q ||| 1 := (heven q).symm
    calc 2 * q + 1 ||| 1 = 2 * q ||| (1 ||| 1) := by rw [hob, Nat.lor_assoc]
      _ = 2 * q ||| 1 := by rw [Nat.or_self]
      _ = 2 * q + 1 := heven q
      _ = 2 * ((2 * q + 1) / 2) + 1 := by omega

/-- Fuelled bit length of zero is zero. -/
theorem sizeAux_zero : ∀ fuel : ℕ, sizeAux fuel 0 = 0 := by
  intro fuel
  cases fuel <;> simp [sizeAux]

/-- For `n < 2 ^ fuel`, `sizeAux fuel n` is the exact bit length of a
nonzero `n`: `2 ^ (size - 1) ≤ n < 2 ^ size`, with `1 ≤ size ≤ fuel`. -/
theorem sizeAux_spec : ∀ fuel n : ℕ, n < 2 ^ fuel → n ≠ 0 →
    1 ≤ sizeAux fuel n ∧ sizeAux fuel n ≤ fuel ∧
      2 ^ (sizeAux fuel n - 1) ≤ n ∧ n < 2 ^ sizeAux fuel n := by
  intro fuel
  induction fuel with
  | zero => intro n h h0; simp at h; omega
  | succ fuel ih =>
    intro n h h0
    rw [sizeAux, if_neg h0]
    by_cases hh : n / 2 = 0
    · have hn1 : n = 1 := by omega
      subst hn1
      norm_num [sizeAux_zero]
    · have hpow : n < 2 ^ fuel * 2 := by rw [← pow_succ]; exact h
      have h2 : n / 2 < 2 ^ fuel := by omega
      obtain ⟨ha, hb, hc, hd⟩ := ih (n / 2) h2 hh
      refine ⟨by omega, by omega, ?_, ?_⟩
      · have hsplit : 2 ^ sizeAux fuel (n / 2) = 2 ^ (sizeAux fuel (n / 2) - 1) * 2 := by
          rw [← pow_succ]
          congr 1
          omega
        have hgoal : sizeAux fuel (n / 2) + 1 - 1 = sizeAux fuel (n / 2) := by omega
        rw [hgoal, hsplit]
        omega
      · rw [pow_succ]
        omega

/-- The rounding `rnd53` of a significand in `[2^63, 2^64)` stays in
`[2^63, 2^64]`. -/
theorem rnd53_bounds {n : ℕ} (h1 : 2 ^ 63 ≤ n) (h2 : n < 2 ^ 64) :
    2 ^ 63 ≤ rnd53 n ∧ rnd53 n ≤ 2 ^ 64 := by
  rw [rnd53]
  have hd := Nat.div_add_mod n 2048
  have hm : n % 2048 < 2048 := Nat.mod_lt _ (by norm_num)
  split_ifs <;> omega

/-- The rounding `rnd24` of a significand in `[2^31, 2^32)` stays in
`[2^31, 2^32]`. -/
theorem rnd24_bounds {n : ℕ} (h1 : 2 ^ 31 ≤ n) (h2 : n < 2 ^ 32) :
    2 ^ 31 ≤ rnd24 n ∧ rnd24 n ≤ 2 ^ 32 := by
  rw [rnd24]
  have hd := Nat.div_add_mod n 256
  have hm : n % 256 < 256 := Nat.mod_lt _ (by norm_num)
  split_ifs <;> omega

/-- After normalization and the sticky bit, the f64 significand lies in
`[2^63, 2^64)` and the exponent drops by at most 63 (the shift). -/
theorem f64post_spec (s : ByteSrc) (sig : ℕ) (e : ℤ) (pos : ℕ)
    (h0 : sig ≠ 0) (h64 : sig < 2 ^ 64) :
    2 ^ 63 ≤ (f64post s sig e pos).1 ∧ (f64post s sig e pos).1 < 2 ^ 64 ∧
      e - 63 ≤ (f64post s sig e pos).2 ∧ (f64post s sig e pos).2 ≤ e := by
  obtain ⟨ha, hb, hc, hd⟩ := sizeAux_spec 64 sig h64 h0
  by_cases hpos : 0 < clz64 sig
  · have hfp : f64post s sig e pos =
        ((((sig <<< clz64 sig) % 2 ^ 64) |||
            (get_u64 s pos >>> (64 - clz64 sig))) ||| 1, e - clz64 sig) := by
      simp only [f64post]
      rw [if_pos hpos]
    have hszlt : sizeAux 64 sig < 64 := by
      have : clz64 sig = 64 - sizeAux 64 sig := rfl
      omega
    have hcomp : 64 - clz64 sig = sizeAux 64 sig := by
      have : clz64 sig = 64 - sizeAux 64 sig := rfl
      omega
    have hshift : sig <<< clz64 sig = sig * 2 ^ (64 - sizeAux 64 sig) := by
      rw [Nat.shiftLeft_eq]
      rfl
    have hpowsum : (2 : ℕ) ^ sizeAux 64 sig * 2 ^ (64 - sizeAux 64 sig) = 2 ^ 64 := by
      rw [← pow_add]
      congr 1
      omega
    have hpowsum2 : (2 : ℕ) ^ (sizeAux 64 sig - 1) * 2 ^ (64 - sizeAux 64 sig) = 2 ^ 63 := by
      rw [← pow_add]
      congr 1
      omega
    have hmul_lt : sig * 2 ^ (64 - sizeAux 64 sig) < 2 ^ 64 := by
      calc sig * 2 ^ (64 - sizeAux 64 sig)
          < 2 ^ sizeAux 64 sig * 2 ^ (64 - sizeAux 64 sig) :=
            (Nat.mul_lt_mul_right (Nat.pos_pow_of_pos _ (by norm_num))).mpr hd
        _ = 2 ^ 64 := hpowsum
    have hmul_ge : 2 ^ 63 ≤ sig * 2 ^ (64 - sizeAux 64 sig) := by
      calc (2 : ℕ) ^ 63 = 2 ^ (sizeAux 64 sig - 1) * 2 ^ (64 - sizeAux 64 sig) :=
            hpowsum2.symm
        _ ≤ sig * 2 ^ (64 - sizeAux 64 sig) := Nat.mul_le_mul_right _ hc
    have hR : get_u64 s pos >>> sizeAux 64 sig < 2 ^ (64 - sizeAux 64 sig) := by
      rw [Nat.shiftRight_eq_div_pow]
      rw [Nat.div_lt_iff_lt_mul (Nat.pos_pow_of_pos _ (by norm_num))]
      calc get_u64 s pos < 2 ^ 64 := get_u64_lt s pos
        _ = 2 ^ (64 - sizeAux 64 sig) * 2 ^ sizeAux 64 sig := by
            rw [← pow_add]
            congr 1
            omega
    have hor : (sig * 2 ^ (64 - sizeAux 64 sig)) |||
        (get_u64 s pos >>> sizeAux 64 sig) =
        2 ^ (64 - sizeAux 64 sig) * sig + get_u64 s pos >>> sizeAux 64 sig := by
      rw [Nat.mul_comm sig]
      exact (Nat.mul_add_lt_is_or hR sig).symm
    have hyhigh : 2 ^ (64 - sizeAux 64 sig) * sig + get_u64 s pos >>> sizeAux 64 sig
        < 2 ^ 64 := by
      calc 2 ^ (64 - sizeAux 64 sig) * sig + get_u64 s pos >>> sizeAux 64 sig
          < 2 ^ (64 - sizeAux 64 sig) * sig + 2 ^ (64 - sizeAux 64 sig) :=
            Nat.add_lt_add_left hR _
        _ = 2 ^ (64 - sizeAux 64 sig) * (sig + 1) := by ring
        _ ≤ 2 ^ (64 - sizeAux 64 sig) * 2 ^ sizeAux 64 sig :=
            Nat.mul_le_mul_left _ hd
        _ = 2 ^ 64 := by rw [Nat.mul_comm]; exact hpowsum
    have hylow : 2 ^ 63 ≤ 2 ^ (64 - sizeAux 64 sig) * sig +
        get_u64 s pos >>> sizeAux 64 sig := by
      calc (2 : ℕ) ^ 63 ≤ sig * 2 ^ (64 - sizeAux 64 sig) := hmul_ge
        _ = 2 ^ (64 - sizeAux 64 sig) * sig := Nat.mul_comm _ _
        _ ≤ 2 ^ (64 - sizeAux 64 sig) * sig + get_u64 s pos >>> sizeAux 64 sig :=
            Nat.le_add_right _ _
    rw [hfp]
    dsimp only
    rw [hcomp, hshift, Nat.mod_eq_of_lt hmul_lt, hor, lor_one]
    set y := 2 ^ (64 - sizeAux 64 sig) * sig + get_u64 s pos >>> sizeAux 64 sig
      with hy
    have hdm := Nat.div_add_mod y 2
    have hclz : clz64 sig ≤ 63 := by
      have : clz64 sig = 64 - sizeAux 64 sig := rfl
      omega
    refine ⟨by omega, by omega, by omega, by omega⟩
  · have hfp : f64post s sig e pos = (sig ||| 1, e) := by
      simp only [f64post]
      rw [if_neg hpos]
    have hsz : sizeAux 64 sig = 64 := by
      have : clz64 sig = 64 - sizeAux 64 sig := rfl
      omega
    rw [hsz] at hc
    norm_num at hc
    rw [hfp]
    dsimp only
    rw [lor_one]
    have hdm := Nat.div_add_mod sig 2
    refine ⟨by omega, by omega, by omega, by omega⟩

/-- After normalization and the sticky bit, the f32 significand lies in
`[2^31, 2^32)` and the exponent drops by at most 31 (the shift). -/
theorem f32post_spec (s : ByteSrc) (sig : ℕ) (e : ℤ) (pos : ℕ)
    (h0 : sig ≠ 0) (h32 : sig < 2 ^ 32) :
    2 ^ 31 ≤ (f32post s sig e pos).1 ∧ (f32post s sig e pos).1 < 2 ^ 32 ∧
      e - 31 ≤ (f32post s sig e pos).2 ∧ (f32post s sig e pos).2 ≤ e := by
  obtain ⟨ha, hb, hc, hd⟩ := sizeAux_spec 32 sig h32 h0
  by_cases hpos : 0 < clz32 sig
  · have hfp : f32post s sig e pos =
        ((((sig <<< clz32 sig) % 2 ^ 32) |||
            (get_u32 s pos >>> (32 - clz32 sig))) ||| 1, e - clz32 sig) := by
      simp only [f32post]
      rw [if_pos hpos]
    have hszlt : sizeAux 32 sig < 32 := by
      have : clz32 sig = 32 - sizeAux 32 sig := rfl
      omega
    have hcomp : 32 - clz32 sig = sizeAux 32 sig := by
      have : clz32 sig = 32 - sizeAux 32 sig := rfl
      omega
    have hshift : sig <<< clz32 sig = sig * 2 ^ (32 - sizeAux 32 sig) := by
      rw [Nat.shiftLeft_eq]
      rfl
    have hpowsum : (2 : ℕ) ^ sizeAux 32 sig * 2 ^ (32 - sizeAux 32 sig) = 2 ^ 32 := by
      rw [← pow_add]
      congr 1
      omega
    have hpowsum2 : (2 : ℕ) ^ (sizeAux 32 sig - 1) * 2 ^ (32 - sizeAux 32 sig) = 2 ^ 31 := by
      rw [← pow_add]
      congr 1
      omega
    have hmul_lt : sig * 2 ^ (32 - sizeAux 32 sig) < 2 ^ 32 := by
      calc sig * 2 ^ (32 - sizeAux 32 sig)
          < 2 ^ sizeAux 32 sig * 2 ^ (32 - sizeAux 32 sig) :=
            (Nat.mul_lt_mul_right (Nat.pos_pow_of_pos _ (by norm_num))).mpr hd
        _ = 2 ^ 32 := hpowsum
    have hmul_ge : 2 ^ 31 ≤ sig * 2 ^ (32 - sizeAux 32 sig) := by
      calc (2 : ℕ) ^ 31 = 2 ^ (sizeAux 32 sig - 1) * 2 ^ (32 - sizeAux 32 sig) :=
            hpowsum2.symm
        _ ≤ sig * 2 ^ (32 - sizeAux 32 sig) := Nat.mul_le_mul_right _ hc
    have hR : get_u32 s pos >>> sizeAux 32 sig < 2 ^ (32 - sizeAux 32 sig) := by
      rw [Nat.shiftRight_eq_div_pow]
      rw [Nat.div_lt_iff_lt_mul (Nat.pos_pow_of_pos _ (by norm_num))]
      calc get_u32 s pos < 2 ^ 32 := get_u32_lt s pos
        _ = 2 ^ (32 - sizeAux 32 sig) * 2 ^ sizeAux 32 sig := by
            rw [← pow_add]
            congr 1
            omega
    have hor : (sig * 2 ^ (32 - sizeAux 32 sig)) |||
        (get_u32 s pos >>> sizeAux 32 sig) =
        2 ^ (32 - sizeAux 32 sig) * sig + get_u32 s pos >>> sizeAux 32 sig := by
      rw [Nat.mul_comm sig]
      exact (Nat.mul_add_lt_is_or hR sig).symm
    have hyhigh : 2 ^ (32 - sizeAux 32 sig) * sig + get_u32 s pos >>> sizeAux 32 sig
        < 2 ^ 32 := by
      calc 2 ^ (32 - sizeAux 32 sig) * sig + get_u32 s pos >>> sizeAux 32 sig
          < 2 ^ (32 - sizeAux 32 sig) * sig + 2 ^ (32 - sizeAux 32 sig) :=
            Nat.add_lt_add_left hR _
        _ = 2 ^ (32 - sizeAux 32 sig) * (sig + 1) := by ring
        _ ≤ 2 ^ (32 - sizeAux 32 sig) * 2 ^ sizeAux 32 sig :=
            Nat.mul_le_mul_left _ hd
        _ = 2 ^ 32 := by rw [Nat.mul_comm]; exact hpowsum
    have hylow : 2 ^ 31 ≤ 2 ^ (32 - sizeAux 32 sig) * sig +
        get_u32 s pos >>> sizeAux 32 sig := by
      calc (2 : ℕ) ^ 31 ≤ sig * 2 ^ (32 - sizeAux 32 sig) := hmul_ge
        _ = 2 ^ (32 - sizeAux 32 sig) * sig := Nat.mul_comm _ _
        _ ≤ 2 ^ (32 - sizeAux 32 sig) * sig + get_u32 s pos >>> sizeAux 32 sig :=
            Nat.le_add_right _ _
    rw [hfp]
    dsimp only
    rw [hcomp, hshift, Nat.mod_eq_of_lt hmul_lt, hor, lor_one]
    set y := 2 ^ (32 - sizeAux 32 sig) * sig + get_u32 s pos >>> sizeAux 32 sig
      with hy
    have hdm := Nat.div_add_mod y 2
    have hclz : clz32 sig ≤ 31 := by
      have : clz32 sig = 32 - sizeAux 32 sig := rfl
      omega
    refine ⟨by omega, by omega, by omega, by omega⟩
  · have hfp : f32post s sig e pos = (sig ||| 1, e) := by
      simp only [f32post]
      rw [if_neg hpos]
    have hsz : sizeAux 32 sig = 32 := by
      have : clz32 sig = 32 - sizeAux 32 sig := rfl
      omega
    rw [hsz] at hc
    norm_num at hc
    rw [hfp]
    dsimp only
    rw [lor_one]
    have hdm := Nat.div_add_mod sig 2
    refine ⟨by omega, by omega, by omega, by omega⟩

/-- Low bit of `x &&& 128` is always clear, so the value is never `1`. -/
theorem land128_ne_one (x : ℕ) : x &&& 128 ≠ 1 := by
  intro h
  have h0 := congrArg (fun y => Nat.testBit y 0) h
  simp [Nat.testBit_and] at h0

/-- C10: for every byte source and position, `get_bool` returns `false`:
the drawn byte is masked with `128`, leaving `0` or `128`, and the
comparison `== 1` never succeeds. -/
theorem c10_get_bool_always_false (s : ByteSrc) (pos : ℕ) :
    get_bool s pos = false := by
  have h := land128_ne_one (get_u8 s pos)
  simp only [get_bool]
  exact beq_eq_false_iff_ne.mpr h

/-- C2 (failing input): on a source that always returns the byte
`128`, `get_bool` returns `false`, not `true` as claimed, and the
source's own `debug_assert!(bit < 2)` condition is violated (the masked
bit value is `128`). -/
theorem c2_get_bool_failing :
    get_bool (fun _ => 128) 0 = false ∧
      ¬ get_bool_assert_cond (fun _ => 128) 0 ∧
      get_bool (fun _ => 0x00) 0 = false := by
  refine ⟨by decide, ?_, by decide⟩
  simp only [get_bool_assert_cond, get_u8, byteAt]
  decide

/-- C4: each `gen_u32` call on state `st < 2^64` outputs the rotate-right
of `((st >> 18) XOR st) >> 27` (truncated to 32 bits) by the amount
`st >> 59`, computed from the old state, and steps the state to
`(st * 6364136223846793005 + inc) mod 2^64`. -/
theorem c4_gen_u32_rotation (st inc : ℕ) (h : st < 2 ^ 64) :
    gen_u32 st inc =
      (rotr32 (xorshifted st) (st >>> 59),
        (st * PCG_DEFAULT_MULTIPLIER_64 + inc) % 2 ^ 64) := by
  have hx : xorshifted st < 2 ^ 32 := Nat.mod_lt _ (by norm_num)
  have hr : st >>> 59 < 32 := by
    rw [Nat.shiftRight_eq_div_pow]
    have h59 : st < 32 * 2 ^ 59 := by
      calc st < 2 ^ 64 := h
        _ = 32 * 2 ^ 59 := by norm_num
    omega
  rw [gen_u32]
  rw [lcgStep]
  refine Prod.ext ?_ rfl
  dsimp only
  set x := xorshifted st with hxdef
  set r := st >>> 59 with hrdef
  have hand : negRotAnd31 r = (32 - r) % 32 := by
    rw [negRotAnd31]
    have h31 := Nat.and_pow_two_sub_one_eq_mod ((2 ^ 32 - r) % 2 ^ 32) 5
    norm_num at h31 ⊢
    rw [h31]
    omega
  rw [hand]
  by_cases hr0 : r = 0
  · rw [hr0]
    norm_num [rotr32]
    have hxlit : x < 4294967296 := by omega
    rw [Nat.mod_eq_of_lt hxlit, Nat.or_self, Nat.mod_one]
    norm_num
  · have hmod32 : (32 - r) % 32 = 32 - r := by omega
    rw [hmod32, Nat.shiftLeft_eq, Nat.shiftRight_eq_div_pow, rotr32]
    have hsum : (2 : ℕ) ^ r * 2 ^ (32 - r) = 2 ^ 32 := by
      rw [← pow_add]
      congr 1
      omega
    have hdm := Nat.div_add_mod x (2 ^ r)
    have hlt : x % 2 ^ r * 2 ^ (32 - r) < 2 ^ 32 := by
      calc x % 2 ^ r * 2 ^ (32 - r)
          < 2 ^ r * 2 ^ (32 - r) :=
            (Nat.mul_lt_mul_right (Nat.pos_pow_of_pos _ (by norm_num))).mpr
              (Nat.mod_lt _ (Nat.pos_pow_of_pos _ (by norm_num)))
        _ = 2 ^ 32 := hsum
    have hshift_mod : x * 2 ^ (32 - r) % 2 ^ 32 = x % 2 ^ r * 2 ^ (32 - r) := by
      conv_lhs => rw [← hdm]
      have expand : (2 ^ r * (x / 2 ^ r) + x % 2 ^ r) * 2 ^ (32 - r)
          = x % 2 ^ r * 2 ^ (32 - r) + x / 2 ^ r * 2 ^ 32 := by
        rw [← hsum]
        ring
      rw [expand, Nat.add_mul_mod_self_right]
      exact Nat.mod_eq_of_lt hlt
    rw [hshift_mod]
    have hdiv_lt : x / 2 ^ r < 2 ^ (32 - r) := by
      rw [Nat.div_lt_iff_lt_mul (Nat.pos_pow_of_pos _ (by norm_num))]
      calc x < 2 ^ 32 := hx
        _ = 2 ^ (32 - r) * 2 ^ r := by rw [← pow_add]; congr 1; omega
    calc x / 2 ^ r ||| x % 2 ^ r * 2 ^ (32 - r)
        = (2 ^ (32 - r) * (x % 2 ^ r)) ||| (x / 2 ^ r) := by
          rw [Nat.lor_comm, Nat.mul_comm]
      _ = 2 ^ (32 - r) * (x % 2 ^ r) + x / 2 ^ r :=
          (Nat.mul_add_lt_is_or hdiv_lt _).symm
      _ = x / 2 ^ r + x % 2 ^ r * 2 ^ (32 - r) := by ring

/-- C4 witness: the rotation theorem instantiated at a concrete state. -/
theorem c4_witness :
    (12345 : ℕ) < 2 ^ 64 ∧
      gen_u32 12345 1 =
        (rotr32 (xorshifted 12345) (12345 >>> 59),
          (12345 * PCG_DEFAULT_MULTIPLIER_64 + 1) % 2 ^ 64) :=
  ⟨by norm_num, c4_gen_u32_rotation 12345 1 (by norm_num)⟩

/-- Taking at least the whole first part of an append takes all of it. -/
theorem take_append_of_le {α : Type} (l1 l2 : List α) (n : ℕ)
    (h : l1.length ≤ n) :
    (l1 ++ l2).take n = l1 ++ l2.take (n - l1.length) := by
  rw [List.take_append_eq_append_take, List.take_of_length_le h]

/-- The buffer produced by `fill_bytes_list` is the length-`n` prefix of
the concatenated little-endian bytes of `⌈n/4⌉` fresh `gen_u32` words, and
the state advances by `⌈n/4⌉` LCG steps. -/
theorem fill_bytes_list_spec (inc : ℕ) : ∀ n st,
    fill_bytes_list st inc n =
      (((word_list st inc ((n + 3) / 4)).map u32Bytes).flatten.take n,
        state_after st inc ((n + 3) / 4)) := by
  intro n
  induction n using Nat.strong_induction_on with
  | _ n ih =>
    intro st
    rw [fill_bytes_list]
    by_cases h0 : n = 0
    · subst h0
      norm_num [word_list, state_after]
    · rw [if_neg h0]
      by_cases h4 : n < 4
      · rw [if_pos h4]
        have hq : (n + 3) / 4 = 1 := by omega
        rw [hq]
        simp [word_list, state_after]
      · rw [if_neg h4]
        have hq : (n + 3) / 4 = (n - 4 + 3) / 4 + 1 := by omega
        rw [hq, ih (n - 4) (by omega) (gen_u32 st inc).2]
        simp only [word_list, state_after, List.map_cons, List.flatten_cons]
        have hlen : (u32Bytes (gen_u32 st inc).1).length = 4 := rfl
        rw [take_append_of_le (u32Bytes (gen_u32 st inc).1)
          ((List.map u32Bytes
            (word_list (gen_u32 st inc).2 inc ((n - 4 + 3) / 4))).flatten) n
          (by rw [hlen]; omega), hlen]

/-- C6: `try_fill_bytes` for `FastRng` always returns `Ok`, and the buffer
holds consecutive 4-byte native-endian chunks of fresh `gen_u32` words,
with only the first `n mod 4` bytes of the final word when `n` is not a
multiple of 4 — that is, the length-`n` prefix of the concatenated words'
bytes. -/
theorem c6_try_fill_bytes_ok (st inc n : ℕ) :
    try_fill_bytes st inc n =
      Except.ok
        (((word_list st inc ((n + 3) / 4)).map u32Bytes).flatten.take n,
          state_after st inc ((n + 3) / 4)) := by
  rw [try_fill_bytes, fill_bytes_list_spec]

/-- C7: seeding is deterministic — two generators built from equal
`(seed, seq)` pairs yield the same word at every index and the same
buffers over any sequence of fill calls. -/
theorem c7_seed_deterministic (a b a' b' : ℕ) (h1 : a = a') (h2 : b = b') :
    (∀ n, word_list (seed a b).1 (seed a b).2 n
        = word_list (seed a' b').1 (seed a' b').2 n) ∧
      (∀ ls, run_fills (seed a b).1 (seed a b).2 ls
        = run_fills (seed a' b').1 (seed a' b').2 ls) := by
  subst h1
  subst h2
  exact ⟨fun _ => rfl, fun _ => rfl⟩

/-- C7 witness: determinism instantiated at `seed(1, 1)` with three words
and one fill call. -/
theorem c7_witness :
    word_list (seed 1 1).1 (seed 1 1).2 3 = word_list (seed 1 1).1 (seed 1 1).2 3 ∧
      run_fills (seed 1 1).1 (seed 1 1).2 [5] = run_fills (seed 1 1).1 (seed 1 1).2 [5] :=
  ⟨(c7_seed_deterministic 1 1 1 1 rfl rfl).1 3,
    (c7_seed_deterministic 1 1 1 1 rfl rfl).2 [5]⟩

/-- C8: whenever the char generation loop returns, the result is a valid
Unicode scalar value, it equals the first valid 32-bit draw, and every
earlier draw was invalid and discarded. -/
theorem c8_gen_char_valid (s : ByteSrc) (fuel pos c : ℕ)
    (h : gen_char s fuel pos = some c) :
    is_valid_char c = true ∧
      ∃ k, c = get_u32 s (pos + 4 * k) ∧
        ∀ j < k, is_valid_char (get_u32 s (pos + 4 * j)) = false := by
  induction fuel generalizing pos with
  | zero => simp [gen_char] at h
  | succ fuel ih =>
    rw [gen_char] at h
    by_cases hv : is_valid_char (get_u32 s pos)
    · rw [if_pos hv] at h
      obtain rfl : get_u32 s pos = c := Option.some.inj h
      refine ⟨hv, 0, by norm_num, ?_⟩
      intro j hj
      omega
    · rw [if_neg hv] at h
      obtain ⟨hval, k, hc, hall⟩ := ih (pos + 4) h
      refine ⟨hval, k + 1, ?_, ?_⟩
      · rw [hc]
        congr 1
        omega
      · intro j hj
        match j with
        | 0 =>
          have : pos + 4 * 0 = pos := by omega
          rw [this]
          exact Bool.not_eq_true _ ▸ Bool.of_not_eq_true hv
        | j + 1 =>
          have heq : pos + 4 * (j + 1) = pos + 4 + 4 * j := by omega
          rw [heq]
          exact hall j (by omega)

/-- C8 witness: a source whose first draw is the surrogate `0xD800` and
whose second draw is `0x41` makes the loop discard the surrogate and
return the second draw. -/
theorem c8_witness :
    gen_char (fun i => if i = 1 then 0xD8 else if i = 4 then 0x41 else 0) 2 0 =
        some 65 ∧
      (is_valid_char 65 = true ∧
        ∃ k, 65 = get_u32
            (fun i => if i = 1 then 0xD8 else if i = 4 then 0x41 else 0)
            (0 + 4 * k) ∧
          ∀ j < k, is_valid_char (get_u32
            (fun i => if i = 1 then 0xD8 else if i = 4 then 0x41 else 0)
            (0 + 4 * j)) = false) :=
  ⟨by decide, c8_gen_char_valid _ 2 0 65 (by decide)⟩

/-- Advancing the start position by one call commutes with `call_pos`. -/
theorem call_pos_shift {α : Type} (g : ByteSrc → ℕ → α × ℕ) (s : ByteSrc)
    (pos : ℕ) : ∀ i, call_pos g s pos (i + 1) = call_pos g s ((g s pos).2) i := by
  intro i
  induction i with
  | zero => rfl
  | succ i ih =>
    calc call_pos g s pos (i + 1 + 1)
        = (g s (call_pos g s pos (i + 1))).2 := rfl
      _ = (g s (call_pos g s ((g s pos).2) i)).2 := by rw [ih]
      _ = call_pos g s ((g s pos).2) (i + 1) := rfl

/-- C9: generating an `n`-element array performs the element generations
in ascending index order — the value at index `i` is the result of the
`i`-th sequential call — and a tuple generates its components left to
right, the second from the cursor left by the first. -/
theorem c9_generation_order :
    (∀ (α : Type) (g : ByteSrc → ℕ → α × ℕ) (s : ByteSrc) (n pos i : ℕ),
        i < n →
        ((gen_array g s n pos).1)[i]? = some ((g s (call_pos g s pos i)).1)) ∧
      (∀ (α β : Type) (g1 : ByteSrc → ℕ → α × ℕ) (g2 : ByteSrc → ℕ → β × ℕ)
          (s : ByteSrc) (pos : ℕ),
          (gen_pair g1 g2 s pos).1 = ((g1 s pos).1, (g2 s (g1 s pos).2).1)) := by
  constructor
  · intro α g s n
    induction n with
    | zero => intro pos i h; omega
    | succ n ih =>
      intro pos i h
      have hexp : (gen_array g s (n + 1) pos).1
          = (g s pos).1 :: (gen_array g s n ((g s pos).2)).1 := rfl
      match i with
      | 0 => rw [hexp, List.getElem?_cons_zero]; rfl
      | i + 1 =>
        calc ((gen_array g s (n + 1) pos).1)[i + 1]?
            = ((gen_array g s n ((g s pos).2)).1)[i]? := by
              rw [hexp, List.getElem?_cons_succ]
          _ = some ((g s (call_pos g s ((g s pos).2) i)).1) :=
              ih ((g s pos).2) i (by omega)
          _ = some ((g s (call_pos g s pos (i + 1))).1) := by
              rw [call_pos_shift]
  · intro α β g1 g2 s pos
    rfl

/-- C9 witness: with the `u32` element rule over the byte source `i ↦ i`,
a two-element array places the first drawn word `0x03020100` at index 0
and the second drawn word `0x07060504` at index 1. -/
theorem c9_witness :
    (0 : ℕ) < 2 ∧ (1 : ℕ) < 2 ∧
      ((gen_array u32_rule (fun i => i) 2 0).1)[0]? = some 50462976 ∧
      ((gen_array u32_rule (fun i => i) 2 0).1)[1]? = some 117835012 :=
  ⟨by norm_num, by norm_num,
    (c9_generation_order.1 ℕ u32_rule (fun i => i) 2 0 0 (by norm_num)).trans
      (by decide),
    (c9_generation_order.1 ℕ u32_rule (fun i => i) 2 0 1 (by norm_num)).trans
      (by decide)⟩

/-- C1 (amended): for every byte source whose first drawn word is nonzero
(the zero-retry loop is not entered), the float rules return a value in
the half-open interval `(0, 1]`: never exactly 0, but exactly 1 is
reachable because the integer-to-float cast rounds to nearest. -/
theorem c1_float_unit_interval :
    (∀ s : ByteSrc, get_u64 s 0 ≠ 0 →
        ∃ q : ℚ, f64value s = some q ∧ 0 < q ∧ q ≤ 1) ∧
      (∀ s : ByteSrc, get_u32 s 0 ≠ 0 →
        ∃ q : ℚ, f32value s = some q ∧ 0 < q ∧ q ≤ 1) := by
  constructor
  · intro s h
    have hlt : get_u64 s 0 < 2 ^ 64 := get_u64_lt s 0
    have hcore : f64core s = some (f64post s (get_u64 s 0) (-64) 8) := by
      have hl : f64loop s 17 0 (-64) = some (get_u64 s 0, -64, 8) := by
        show f64loop s (16 + 1) 0 (-64) = some (get_u64 s 0, -64, 8)
        rw [f64loop]
        simp only [if_neg h]
      rw [f64core, hl]
      rfl
    obtain ⟨hs1, hs2, he1, he2⟩ := f64post_spec s (get_u64 s 0) (-64) 8 h hlt
    set p := f64post s (get_u64 s 0) (-64) 8 with hp
    obtain ⟨hr1, hr2⟩ := rnd53_bounds hs1 hs2
    have hval : f64value s = some ((rnd53 p.1 : ℚ) * (2 : ℚ) ^ p.2) := by
      rw [f64value, hcore, Option.some_bind, f64val,
        if_pos (show (-1022 : ℤ) ≤ p.2 by omega)]
    refine ⟨_, hval, ?_, ?_⟩
    · apply mul_pos
      · exact_mod_cast (show 0 < rnd53 p.1 by omega)
      · exact zpow_pos (by norm_num) _
    · calc (rnd53 p.1 : ℚ) * (2 : ℚ) ^ p.2
          ≤ ((2 : ℚ) ^ (64 : ℕ)) * (2 : ℚ) ^ p.2 := by
            apply mul_le_mul_of_nonneg_right
            · exact_mod_cast hr2
            · exact le_of_lt (zpow_pos (by norm_num) _)
        _ ≤ ((2 : ℚ) ^ (64 : ℕ)) * (2 : ℚ) ^ (-64 : ℤ) := by
            apply mul_le_mul_of_nonneg_left
            · exact zpow_le_zpow_right₀ (by norm_num) (by omega : p.2 ≤ -64)
            · positivity
        _ = 1 := by
            rw [← zpow_natCast (2 : ℚ) 64,
              ← zpow_add₀ (by norm_num : (2 : ℚ) ≠ 0)]
            norm_num
  · intro s h
    have hlt : get_u32 s 0 < 2 ^ 32 := get_u32_lt s 0
    have hcore : f32core s = some (f32post s (get_u32 s 0) (-32) 4) := by
      have hl : f32loop s 5 0 (-32) = some (get_u32 s 0, -32, 4) := by
        show f32loop s (4 + 1) 0 (-32) = some (get_u32 s 0, -32, 4)
        rw [f32loop]
        simp only [if_neg h]
      rw [f32core, hl]
      rfl
    obtain ⟨hs1, hs2, he1, he2⟩ := f32post_spec s (get_u32 s 0) (-32) 4 h hlt
    set p := f32post s (get_u32 s 0) (-32) 4 with hp
    obtain ⟨hr1, hr2⟩ := rnd24_bounds hs1 hs2
    have hval : f32value s = some ((rnd24 p.1 : ℚ) * (2 : ℚ) ^ p.2) := by
      rw [f32value, hcore, Option.some_bind, f32val,
        if_pos (show (-126 : ℤ) ≤ p.2 by omega)]
    refine ⟨_, hval, ?_, ?_⟩
    · apply mul_pos
      · exact_mod_cast (show 0 < rnd24 p.1 by omega)
      · exact zpow_pos (by norm_num) _
    · calc (rnd24 p.1 : ℚ) * (2 : ℚ) ^ p.2
          ≤ ((2 : ℚ) ^ (32 : ℕ)) * (2 : ℚ) ^ p.2 := by
            apply mul_le_mul_of_nonneg_right
            · exact_mod_cast hr2
            · exact le_of_lt (zpow_pos (by norm_num) _)
        _ ≤ ((2 : ℚ) ^ (32 : ℕ)) * (2 : ℚ) ^ (-32 : ℤ) := by
            apply mul_le_mul_of_nonneg_left
            · exact zpow_le_zpow_right₀ (by norm_num) (by omega : p.2 ≤ -32)
            · positivity
        _ = 1 := by
            rw [← zpow_natCast (2 : ℚ) 32,
              ← zpow_add₀ (by norm_num : (2 : ℚ) ≠ 0)]
            norm_num

/-- C1 witness: the all-`0xFF` source has a nonzero first draw, and both
float rules produce a value in `(0, 1]` on it. -/
theorem c1_witness :
    (get_u64 (fun _ => 255) 0 ≠ 0 ∧
        ∃ q : ℚ, f64value (fun _ => 255) = some q ∧ 0 < q ∧ q ≤ 1) ∧
      (get_u32 (fun _ => 255) 0 ≠ 0 ∧
        ∃ q : ℚ, f32value (fun _ => 255) = some q ∧ 0 < q ∧ q ≤ 1) :=
  ⟨⟨by decide, c1_float_unit_interval.1 _ (by decide)⟩,
    ⟨by decide, c1_float_unit_interval.2 _ (by decide)⟩⟩

/-- C1 counterexample: on the source that always returns `0xFF`, the f64
rule returns exactly `1`: the cast `u64::MAX as f64` rounds up to `2^64`,
and `2^64 * 2^(-64) = 1`, so the claimed strict bound `f < 1` fails. -/
theorem c1_counterexample : f64value (fun _ => 255) = some 1 := by
  have hc : f64core (fun _ => 255) = some (2 ^ 64 - 1, -64) := by decide
  have hr : rnd53 (2 ^ 64 - 1) = 2 ^ 64 := by decide
  rw [f64value, hc, Option.some_bind, f64val,
    if_pos (by norm_num : (-1022 : ℤ) ≤ (-64 : ℤ))]
  rw [hr]
  norm_num

/-- C3 (failing input): a source yielding fifteen zero 64-bit words and
then the word `1` drives the f64 exponent to `-1087 < EMIN = -1074`
without triggering the loop's abort — the function returns normally with
an exponent below EMIN (the release build then computes a garbage value
from the sign-extended `exp2` bit pattern instead of panicking).  The f32
path shows the same gap: three zero 32-bit words and then `1` reach
exponent `-159 < EMIN = -149`. -/
theorem c3_exponent_below_emin :
    f64core (fun i => if i = 120 then 1 else 0) = some (2 ^ 63 + 1, -1087) ∧
      (-1087 : ℤ) < -1074 ∧
      f32core (fun i => if i = 12 then 1 else 0) = some (2 ^ 31 + 1, -159) ∧
      (-159 : ℤ) < -149 :=
  ⟨by decide, by norm_num, by decide, by norm_num⟩

/-- C5 (failing input): at `seed = 2^64 - 1`, `seq = 0` the increment is
`1` and the initial addition `seed + init_inc` overflows `u64`, so the
checked (debug-profile) semantics of the source's plain `+` panics
(`seed_checked` returns `none`), while under the wrapping semantics the
spec claims the resulting state is
`(((seed + inc) mod 2^64) * MULT + inc) mod 2^64 = 1`. -/
theorem c5_seed_overflow :
    seed_checked (2 ^ 64 - 1) 0 = none ∧
      seed (2 ^ 64 - 1) 0 = (1, 1) ∧
      2 ^ 64 ≤ (2 ^ 64 - 1) + (((0 <<< 1) % 2 ^ 64) ||| 1) := by
  refine ⟨?_, ?_, by decide⟩
  · simp only [seed_checked]
    norm_num
  · simp only [seed, lcgStep]
    norm_num

end RandomRs
